import Mathlib

/-!
Shallow embedding of the `zw_to_anki` repository (Rust), covering
`src/dict.rs`, `src/pinyin.rs` and the `to_colour_hanzi` logic of
`src/anki.rs`.

Conventions of the embedding:
* Rust `String`/`&str` values become Lean `String` (a list of unicode
  scalar values); where Rust indexes or measures *bytes* the embedding
  computes UTF-8 byte counts explicitly via `Char.utf8Size`.
* `HashMap` / `BTreeSet` become association lists / duplicate-free lists;
  only properties independent of iteration order are proved about them,
  except where the source fixes the order.
* Rust panics (`panic!`, `unwrap`, `expect`, out-of-bounds slicing) are
  modelled by `Option`/`Except` `none`/`error` results.
-/

/-- `Tone` from `dict.rs` (`First` .. `Fifth`). -/
inductive Tone : Type
  | First
  | Second
  | Third
  | Fourth
  | Fifth
deriving DecidableEq, Repr

/-- `impl From<Tone> for usize` in `dict.rs`: tones map to 1..5. -/
def usizeFromTone : Tone → Nat
  | .First => 1
  | .Second => 2
  | .Third => 3
  | .Fourth => 4
  | .Fifth => 5

/-- `impl From<u8> for Tone` in `dict.rs`.  The Rust code panics on any
value other than 1..5; the panic is modelled by `none`. -/
def toneFromNat : Nat → Option Tone
  | 1 => some Tone.First
  | 2 => some Tone.Second
  | 3 => some Tone.Third
  | 4 => some Tone.Fourth
  | 5 => some Tone.Fifth
  | _ => none

/-- `PinYinSyllable` from `dict.rs`: a syllable text plus optional tone. -/
structure PinYinSyllable : Type where
  text : String
  tone : Option Tone
deriving DecidableEq, Repr

/-- `text.replace("u:", "ü")` on the character list: replace each
non-overlapping occurrence of `u:` (scanning left to right) by `ü`,
as Rust `str::replace` does. -/
def replaceUColon : List Char → List Char
  | 'u' :: ':' :: rest => 'ü' :: replaceUColon rest
  | c :: rest => c :: replaceUColon rest
  | [] => []

/-- `impl From<&str> for PinYinSyllable` in `dict.rs`.
`value.split_at(value.len() - 1)` splits at *byte* index `len - 1`, so the
Rust code panics when `value` is empty (index underflow) or when the last
character is not a single UTF-8 byte (not a char boundary); both panics are
modelled by `none`.  `tone_str.parse::<u8>()` succeeds exactly when the
(single, one-byte) last character is an ASCII digit, and `Tone::from`
panics (`none`) when that digit is outside 1..5. -/
def PinYinSyllable.fromStr (value : String) : Option PinYinSyllable :=
  if value = "·" then
    some { text := value, tone := none }
  else
    match value.data.getLast? with
    | none => none
    | some lastc =>
      if lastc.utf8Size ≠ 1 then none
      else
        let text := String.mk (replaceUColon value.data.dropLast)
        if lastc.isDigit then
          match toneFromNat (lastc.toNat - 48) with
          | some t => some { text := text, tone := some t }
          | none => none
        else
          some { text := text, tone := none }

/-- `PinYin` from `dict.rs`: a newtype over a vector of syllables. -/
structure PinYin : Type where
  syllables : List PinYinSyllable
deriving DecidableEq, Repr

/-- `Word` from `dict.rs`: simplified characters plus a map from pinyin
reading to the set of definitions for that reading.  The `HashMap` is an
association list, the `BTreeSet<String>` a duplicate-free list. -/
structure Word : Type where
  simplified : String
  pinyins : List (PinYin × List String)
deriving DecidableEq, Repr

/-- `Iterator::collect::<Option<Vec<_>>>` composed with a map: apply `f`
to every element, returning `none` as soon as one application is `none`. -/
def collectOption {α β : Type} (f : α → Option β) : List α → Option (List β)
  | [] => some []
  | a :: l =>
    match f a with
    | none => none
    | some b => (collectOption f l).map (fun bs => b :: bs)

/-- `HashMap::get`: look a key up in an association list. -/
def alistGet {κ α : Type} [DecidableEq κ] : List (κ × α) → κ → Option α
  | [], _ => none
  | (a, b) :: rest, k => if a = k then some b else alistGet rest k

/-- `map.entry(k).and_modify(f).or_insert(v)`: modify the value at `k` in
place if the key is present, otherwise append the binding `(k, v)`. -/
def alistInsertWith {κ α : Type} [DecidableEq κ] :
    List (κ × α) → κ → (α → α) → α → List (κ × α)
  | [], k, _, v => [(k, v)]
  | (a, b) :: rest, k, f, v =>
    if a = k then (a, f b) :: rest else (a, b) :: alistInsertWith rest k f v

/-- `BTreeSet::insert` of one gloss: add it if not already present. -/
def glossInsert (acc : List String) (g : String) : List String :=
  if g ∈ acc then acc else acc ++ [g]

/-- `BTreeSet::extend`: insert every element of `new` into `acc`. -/
def extendGlosses (acc new : List String) : List String :=
  new.foldl glossInsert acc

/-- The `and_modify` closure of `CEDict::parse`: fold every reading of the
incoming word into the existing word's readings, unioning gloss sets. -/
def mergeWord (existing incoming : Word) : Word :=
  { existing with
    pinyins := incoming.pinyins.foldl
      (fun acc pd => alistInsertWith acc pd.1 (fun ds => extendGlosses ds pd.2) pd.2)
      existing.pinyins }

/-- `ret.entry(word.simplified).and_modify(merge).or_insert(word)`. -/
def insertEntry (m : List (String × Word)) (w : Word) : List (String × Word) :=
  alistInsertWith m w.simplified (fun ex => mergeWord ex w) w

/-- `str::split` on a character predicate, keeping empty pieces (as Rust
`split('/')` does). -/
def splitByPred (p : Char → Bool) : List Char → List (List Char)
  | [] => [[]]
  | x :: rest =>
    if p x then [] :: splitByPred p rest
    else
      match splitByPred p rest with
      | [] => [[x]]
      | h :: t => (x :: h) :: t

/-- `str::split_whitespace`: split on whitespace, dropping empty pieces. -/
def splitWhitespaceChars (l : List Char) : List String :=
  ((splitByPred Char.isWhitespace l).filter (fun s => s ≠ [])).map String.mk

/-- `str::split_once('[')`: split at the first occurrence of the pattern,
returning the parts before and after it, or `none` when absent. -/
def splitOnceChar (c : Char) : List Char → Option (List Char × List Char)
  | [] => none
  | x :: rest =>
    if x = c then some ([], rest)
    else (splitOnceChar c rest).map (fun ab => (x :: ab.1, ab.2))

/-- `str::trim_end_matches("] ")` specialised to the pattern used by
`CEDict::parse_line`: repeatedly strip a trailing `"] "`.  Works on the
reversed list (where the suffix `"] "` is the prefix `' '`, `']'`). -/
def stripRevBracketSpace : List Char → List Char
  | ' ' :: ']' :: rest => stripRevBracketSpace rest
  | l => l

/-- `pinyin_trailing.trim_end_matches("] ")`. -/
def trimEndBracketSpace (l : List Char) : List Char :=
  (stripRevBracketSpace l.reverse).reverse

/-- `CEDict::parse_line` from `dict.rs`: split a line such as
`一氧化氮 一氧化氮 [yi1 yang3 hua4 dan4] /nitric oxide/` into a `Word`
whose `pinyins` map has a single binding.  Every `unwrap` of the Rust
code (missing `[`, fewer than two whitespace-separated words, a syllable
the syllable parser panics on) is modelled by `none`. -/
def parseLine (line : String) : Option Word :=
  match splitByPred (fun c => c = '/') line.data with
  | [] => none
  | wordsAndPinyin :: defs =>
    match splitOnceChar '[' wordsAndPinyin with
    | none => none
    | some (words, pinyinTrailing) =>
      match (splitWhitespaceChars words).get? 1 with
      | none => none
      | some simplified =>
        match collectOption PinYinSyllable.fromStr
            (splitWhitespaceChars (trimEndBracketSpace pinyinTrailing)) with
        | none => none
        | some syls =>
          some { simplified := simplified
                 pinyins := [(⟨syls⟩,
                   extendGlosses [] ((defs.filter (fun d => d ≠ [])).map String.mk))] }

/-- `line.starts_with('#')`: the first character is `#`. -/
def startsWithHash (line : String) : Bool :=
  match line.data with
  | '#' :: _ => true
  | _ => false

/-- The loop body of `CEDict::parse`: fold the lines into the store,
skipping lines that start with `#`; a line `parse_line` panics on makes
the whole parse panic (`none`). -/
def parseLines : List (String × Word) → List String → Option (List (String × Word))
  | m, [] => some m
  | m, line :: rest =>
    if startsWithHash line then parseLines m rest
    else
      match parseLine line with
      | none => none
      | some w => parseLines (insertEntry m w) rest

/-- `CEDict::parse`, generalised over the list of source lines (the Rust
code applies it to the lines of the bundled dictionary text). -/
def CEDict.parse (lines : List String) : Option (List (String × Word)) :=
  parseLines [] lines

/-- The recursion of `iterate_all_subdivisions` in `dict.rs`, phrased as a
pure function: all decompositions of `l` into non-empty consecutive
pieces, emitted with the first piece growing from length 1 to the whole
list.  `fuel` bounds the recursion depth (any `fuel ≥ l.length` gives the
same result), making the definition structurally recursive. -/
def subdivFuel : Nat → List Char → List (List (List Char))
  | _, [] => [[]]
  | 0, _ :: _ => []
  | fuel + 1, c :: cs =>
    ((List.range (cs.length + 1)).map (fun i => i + 1)).flatMap
      (fun i => (subdivFuel fuel ((c :: cs).drop i)).map
        (fun s => (c :: cs).take i :: s))

/-- All subdivisions of `l`, in the emission order of
`iterate_all_subdivisions`. -/
def subdivisions (l : List Char) : List (List (List Char)) :=
  subdivFuel l.length l

/-- `generate_all_chunkings` from `dict.rs`: all chunkings of a word in
generation order reversed (biggest chunking first) with the whole-word
chunking skipped, each chunk collected back into a `String`. -/
def generateAllChunkings (word : String) : List (List String) :=
  (((subdivisions word.data).reverse).drop 1).map
    (fun chunking => chunking.map String.mk)

/-- The loop of `CEDict::get`: return the chunk entries of the first
chunking all of whose chunks are in the dictionary. -/
def firstChunking (m : List (String × Word)) : List (List String) → Option (List Word)
  | [] => none
  | c :: rest =>
    match collectOption (alistGet m) c with
    | some ws => some ws
    | none => firstChunking m rest

/-- `CEDict::get` from `dict.rs`: a direct hit returns the single entry;
otherwise the first fully-resolvable chunking is returned, and if none
resolves the Rust code panics with a message naming the word (modelled by
`Except.error` carrying that message). -/
def CEDict.get (m : List (String × Word)) (word : String) : Except String (List Word) :=
  match alistGet m word with
  | some w => Except.ok [w]
  | none =>
    match firstChunking m (generateAllChunkings word) with
    | some ws => Except.ok ws
    | none =>
      Except.error ("The dictionary didn't contain one of the chars of " ++ word)

/-- The `VOWELS` constant of `pinyin.rs`. -/
def VOWELS : List Char := ['a', 'e', 'i', 'o', 'u', 'ü', 'A', 'E', 'I', 'O', 'U', 'Ü']

/-- `VOWELS.contains(c)`. -/
def isVowel (c : Char) : Bool := VOWELS.contains c

/-- UTF-8 byte length of a character list (Rust `str::len`). -/
def utf8Len (l : List Char) : Nat := (l.map Char.utf8Size).sum

/-- Split a character list at a *byte* offset, as Rust byte slicing does;
`none` when the offset is not a character boundary (where Rust panics). -/
def byteSplit : List Char → Nat → Option (List Char × List Char)
  | l, 0 => some ([], l)
  | [], _ + 1 => none
  | c :: rest, n + 1 =>
    if c.utf8Size ≤ n + 1 then
      (byteSplit rest (n + 1 - c.utf8Size)).map (fun ab => (c :: ab.1, ab.2))
    else none

/-- The vowel tables `AS` .. `UUS` of `pinyin.rs`, indexed by
`usize::from(tone) - 1`. -/
def AS : List Char := ['ā', 'á', 'ǎ', 'à', 'a']

def ES : List Char := ['ē', 'é', 'ě', 'è', 'e']

def IS : List Char := ['ī', 'í', 'ǐ', 'ì', 'i']

def OS : List Char := ['ō', 'ó', 'ǒ', 'ò', 'o']

def US : List Char := ['ū', 'ú', 'ǔ', 'ù', 'u']

def UUS : List Char := ['ǖ', 'ǘ', 'ǚ', 'ǜ', 'ü']

/-- Rust `char::to_lowercase` restricted to the characters this program
can feed to `add_diacritic_to_char`: ASCII letters plus `Ü`.  (For every
other character the Rust match falls to its panic arm whether or not the
character is lowercased, so mapping it to itself is faithful.) -/
def rustToLower (c : Char) : Char := if c = 'Ü' then 'ü' else c.toLower

/-- Rust `char::is_uppercase` restricted likewise: ASCII uppercase or `Ü`. -/
def rustIsUpper (c : Char) : Bool := c = 'Ü' || c.isUpper

/-- Rust `char::to_uppercase` on the diacritic-bearing vowels the program
produces (the `transformed` value of `add_diacritic_to_char`). -/
def rustToUpper (c : Char) : Char :=
  match c with
  | 'ā' => 'Ā' | 'á' => 'Á' | 'ǎ' => 'Ǎ' | 'à' => 'À' | 'a' => 'A'
  | 'ē' => 'Ē' | 'é' => 'É' | 'ě' => 'Ě' | 'è' => 'È' | 'e' => 'E'
  | 'ī' => 'Ī' | 'í' => 'Í' | 'ǐ' => 'Ǐ' | 'ì' => 'Ì' | 'i' => 'I'
  | 'ō' => 'Ō' | 'ó' => 'Ó' | 'ǒ' => 'Ǒ' | 'ò' => 'Ò' | 'o' => 'O'
  | 'ū' => 'Ū' | 'ú' => 'Ú' | 'ǔ' => 'Ǔ' | 'ù' => 'Ù' | 'u' => 'U'
  | 'ǖ' => 'Ǖ' | 'ǘ' => 'Ǘ' | 'ǚ' => 'Ǚ' | 'ǜ' => 'Ǜ' | 'ü' => 'Ü'
  | other => other

/-- `add_diacritic_to_char` from `pinyin.rs`: pick the tone variant of the
lowercased vowel and restore the original case; the panic on a non-vowel
is modelled by `none`. -/
def addDiacriticToChar (c : Char) (tone : Tone) : Option Char :=
  let idx := usizeFromTone tone - 1
  let table :=
    match rustToLower c with
    | 'a' => some AS
    | 'e' => some ES
    | 'i' => some IS
    | 'o' => some OS
    | 'u' => some US
    | 'ü' => some UUS
    | _ => none
  table.map (fun t =>
    let transformed := t.getD idx 'a'
    if rustIsUpper c then rustToUpper transformed else transformed)

/-- `vowels.contains("ou")`: a two-byte ASCII substring of a UTF-8 string
is exactly an adjacent pair of characters `o`, `u`. -/
def hasOUPair (l : List Char) : Bool :=
  (l.zip l.tail).any (fun p => p.1 = 'o' && p.2 = 'u')

/-- `add_diacritic_to_vowel_group` from `pinyin.rs`.  Note
`vowels.len() == 1` measures *bytes*, so a lone `ü` (two bytes) does not
take the single-character branch.  A panic anywhere (from
`add_diacritic_to_char` on a non-vowel) is modelled by `none`. -/
def addDiacriticToVowelGroup (vowels : List Char) (tone : Tone) : Option (List Char) :=
  if utf8Len vowels = 1 then
    match vowels with
    | c :: _ => (addDiacriticToChar c tone).map (fun d => [d])
    | [] => none
  else if vowels.any (fun c => c = 'a' || c = 'e') then
    vowels.mapM (fun c =>
      if c = 'a' || c = 'e' then addDiacriticToChar c tone else some c)
  else if hasOUPair vowels then
    vowels.mapM (fun c => if c = 'o' then addDiacriticToChar c tone else some c)
  else
    (vowels.enum.mapM (fun ic =>
      if ic.1 = 1 then addDiacriticToChar ic.2 tone else some ic.2))

/-- `add_diacritic` from `pinyin.rs`.  `first_vowel_idx` is a *character*
position while `last_vowel_idx` is derived from the *byte* length, and
both are then used as byte-slicing indices; the embedding reproduces this
by splitting the character list at those byte offsets (`none` models the
Rust panics: no vowel found, or slicing off a character boundary). -/
def addDiacritic (text : String) (tone : Option Tone) : Option String :=
  match tone with
  | none => some text
  | some Tone.Fifth => some text
  | some t =>
    let cs := text.data
    match cs.findIdx? isVowel, cs.reverse.findIdx? isVowel with
    | some fvi, some rvi =>
      let lvi := utf8Len cs - 1 - rvi
      if lvi + 1 < fvi then none
      else
        match byteSplit cs fvi with
        | none => none
        | some (pre, rest1) =>
          match byteSplit rest1 (lvi + 1 - fvi) with
          | none => none
          | some (grp, suf) =>
            (addDiacriticToVowelGroup grp t).map
              (fun marked => String.mk (pre ++ marked ++ suf))
    | _, _ => none

/-- `Anki::colourise` (also `colourise` in `dict.rs`): wrap the token in a
tone-class span, or return it unchanged when there is no tone. -/
def colourise (token : String) (tone : Option Tone) : String :=
  match tone with
  | none => token
  | some t =>
    "<span class=\"tone" ++ toString (usizeFromTone t) ++ "\">" ++ token ++ "</span>"

/-- The tone sequence of one reading (`py.0.iter().map(|pys| pys.tone)`). -/
def tonesOf (py : PinYin) : List (Option Tone) :=
  py.syllables.map PinYinSyllable.tone

/-- `Anki::to_colour_hanzi` from `anki.rs`: collect the tone sequences of
all readings into a set (`HashSet`, modelled by `List.dedup`); when the
set has exactly one element, zip the simplified characters against that
sequence and colourise each pair; otherwise colourise every character
with the fifth tone. -/
def toColourHanzi (word : Word) : String :=
  let tonesConsensus := (word.pinyins.map (fun pd => tonesOf pd.1)).dedup
  match tonesConsensus with
  | [ts] =>
    String.join ((word.simplified.data.zip ts).map
      (fun ct => colourise (String.mk [ct.1]) ct.2))
  | _ =>
    String.join (word.simplified.data.map
      (fun c => colourise (String.mk [c]) (some Tone.Fifth)))

/-- The property asserted by the first clause of claim C3: the
enumeration lists decompositions with fewer pieces before decompositions
with more pieces (the piece counts are non-decreasing). -/
def coarsenessOrdered (w : String) : Prop :=
  ((generateAllChunkings w).map (fun c => c.length)).Pairwise (fun a b => a ≤ b)

def wGongTong : Word := ⟨"共同", []⟩

def wHuaTi : Word := ⟨"话题", []⟩

def demoDict : List (String × Word) := [("共同", wGongTong), ("话题", wHuaTi)]

def wNiHao : Word :=
  ⟨"你好", [(⟨[⟨"ni", some Tone.Third⟩, ⟨"hao", some Tone.Third⟩]⟩, ["hello"])]⟩

def wChang : Word :=
  ⟨"长", [(⟨[⟨"chang", some Tone.Second⟩]⟩, ["long"]),
          (⟨[⟨"zhang", some Tone.Third⟩]⟩, ["grow"])]⟩

def wShortTones : Word :=
  ⟨"你好", [(⟨[⟨"ni", some Tone.Third⟩]⟩, ["x"])]⟩

/-- The word `w` maps the reading `py` to a gloss set containing `g`. -/
def wordHasGloss (w : Word) (py : PinYin) (g : String) : Prop :=
  ∃ gs, alistGet w.pinyins py = some gs ∧ g ∈ gs

/-- The store `m` maps the written form `form` to an entry whose gloss set
for reading `py` contains `g`. -/
def storeHasGloss (m : List (String × Word)) (form : String) (py : PinYin)
    (g : String) : Prop :=
  ∃ w, alistGet m form = some w ∧ wordHasGloss w py g

/-- Line `line` parses to a word with written form `form` whose gloss set
for reading `py` contains `g`. -/
def lineContributes (line form : String) (py : PinYin) (g : String) : Prop :=
  ∃ w0, parseLine line = some w0 ∧ w0.simplified = form ∧ wordHasGloss w0 py g

def demoLines : List String :=
  ["X 共同 [gong4 tong2] /common/", "X 共同 [gong4 tong2] /joint/common/"]

def demoStore : List (String × Word) :=
  [("共同", ⟨"共同",
    [(⟨[⟨"gong", some Tone.Fourth⟩, ⟨"tong", some Tone.Second⟩]⟩,
      ["common", "joint"])]⟩)]

/-- Claim C2: for the 4-character token 共同话题, the chunking enumeration
(excluding the whole-string 1-piece decomposition) is exactly, in order:
[共同话,题], [共同,话题], [共同,话,题], [共,同话题], [共,同话,题],
[共,同,话题], [共,同,话,题]. -/
theorem chunking_of_gongtonghuati :
    generateAllChunkings "共同话题" =
      [["共同话", "题"], ["共同", "话题"], ["共同", "话", "题"],
       ["共", "同话题"], ["共", "同话", "题"], ["共", "同", "话题"],
       ["共", "同", "话", "题"]] := by decide

/-- Counterexample to claim C3 as stated: for the token `abcd` the piece
counts along the enumeration are [2,2,3,2,3,3,4], so a 3-piece
decomposition ([ab,c,d]) is enumerated before a 2-piece one ([a,bcd]);
the enumeration is not ordered by decreasing coarseness. -/
theorem chunkings_not_coarseness_ordered : ¬ coarsenessOrdered "abcd" := by
  unfold coarsenessOrdered
  decide

/-- Claim C4, evaluated at the failing input: the vowel span of `lü` is the
single character `ü`, yet `add_diacritic` returns the text unchanged
(because `vowels.len() == 1` measures bytes and `ü` is two bytes), instead
of the claimed `lǜ`. -/
theorem add_diacritic_lone_uuml_unmarked :
    addDiacritic "lü" (some Tone.Fourth) = some "lü" ∧ ("lü" : String) ≠ "lǜ" := by decide

/-- Claim C5, evaluated at the failing input: the vowel span of `Ai`
contains an `a` in upper case, yet `add_diacritic` puts the fourth-tone
mark on the `i` (the a/e test is case-sensitive), producing `Aì` instead
of the claimed `Ài`. -/
theorem add_diacritic_uppercase_ai_marks_i :
    addDiacritic "Ai" (some Tone.Fourth) = some "Aì" ∧ ("Aì" : String) ≠ "Ài" := by decide

/-- Counterexample to claim C7 as stated: for the token `ma0`, whose last
character is the digit `0` (not in 1-5), the syllable parser panics
(`Tone::from` on 0, modelled by `none`) instead of yielding a syllable
with no tone. -/
theorem pinyin_syllable_digit_zero_panics :
    PinYinSyllable.fromStr "ma0" = none ∧
      (none : Option PinYinSyllable) ≠ some ⟨"ma", none⟩ := by decide

lemma collectOption_eq_some {α β : Type} {f : α → Option β} :
    ∀ {l : List α} {ys : List β},
      collectOption f l = some ys ↔ List.Forall₂ (fun a b => f a = some b) l ys := by
  intro l
  induction l with
  | nil =>
    intro ys
    constructor
    · intro h
      obtain rfl : ([] : List β) = ys := Option.some.inj h
      exact List.Forall₂.nil
    · rintro ⟨⟩
      rfl
  | cons a l ih =>
    intro ys
    constructor
    · intro h
      simp only [collectOption] at h
      match ha : f a with
      | none => rw [ha] at h; exact absurd h (by simp)
      | some b =>
        rw [ha] at h
        match hl : collectOption f l with
        | none => rw [hl] at h; exact absurd h (by simp)
        | some bs =>
          rw [hl] at h
          obtain rfl : b :: bs = ys := by simpa using h
          exact List.Forall₂.cons ha (ih.mp hl)
    · intro h
      cases h with
      | cons hab htl =>
        simp only [collectOption, hab, ih.mpr htl]
        rfl

lemma collectOption_isSome {α β : Type} {f : α → Option β} :
    ∀ {l : List α}, (collectOption f l).isSome = l.all (fun a => (f a).isSome) := by
  intro l
  induction l with
  | nil => rfl
  | cons a l ih =>
    simp only [collectOption, List.all_cons, ← ih]
    match ha : f a, hl : collectOption f l with
    | some b, some bs => rfl
    | some b, none => rfl
    | none, _ => rfl

lemma findQ_cons_pos {α : Type} (p : α → Bool) (a : α) (l : List α) (h : p a = true) :
    List.find? p (a :: l) = some a := by
  simp [List.find?_cons, h]

lemma findQ_cons_neg {α : Type} (p : α → Bool) (a : α) (l : List α) (h : p a = false) :
    List.find? p (a :: l) = List.find? p l := by
  simp [List.find?_cons, h]

lemma firstChunking_eq_find (m : List (String × Word)) :
    ∀ (l : List (List String)),
      firstChunking m l =
        (l.find? (fun ch => ch.all (fun p => (alistGet m p).isSome))).bind
          (fun c => collectOption (alistGet m) c) := by
  intro l
  induction l with
  | nil => rfl
  | cons c rest ih =>
    cases hc : c.all (fun p => (alistGet m p).isSome) with
    | true =>
      rw [findQ_cons_pos (fun ch => ch.all (fun p => (alistGet m p).isSome)) c rest hc]
      have hs : (collectOption (alistGet m) c).isSome = true := by
        rw [collectOption_isSome]; exact hc
      obtain ⟨ws, hws⟩ := Option.isSome_iff_exists.mp hs
      simp only [firstChunking, hws, Option.some_bind]
    | false =>
      rw [findQ_cons_neg (fun ch => ch.all (fun p => (alistGet m p).isSome)) c rest hc]
      have hnone : collectOption (alistGet m) c = none := by
        cases h : collectOption (alistGet m) c with
        | none => rfl
        | some ws =>
          exfalso
          have : (collectOption (alistGet m) c).isSome = true := by rw [h]; rfl
          rw [collectOption_isSome, hc] at this
          exact Bool.noConfusion this
      simp only [firstChunking, hnone, ih]

/-- Claim C1: if `token` is a key of the store, `CEDict::get` returns
exactly the one entry for that key; if it is not, `get` returns the
entries of the first enumerated decomposition all of whose pieces are
direct keys, one entry per piece in piece order. -/
theorem cedict_get_resolution (m : List (String × Word)) (token : String) :
    (∀ w, alistGet m token = some w → CEDict.get m token = Except.ok [w]) ∧
    (alistGet m token = none →
      ∀ c, (generateAllChunkings token).find?
            (fun ch => ch.all (fun p => (alistGet m p).isSome)) = some c →
        ∃ ws, CEDict.get m token = Except.ok ws ∧
          List.Forall₂ (fun p w => alistGet m p = some w) c ws) := by
  constructor
  · intro w hw
    simp only [CEDict.get, hw]
  · intro hnone c hfind
    have hpred := List.find?_some hfind
    have hs : (collectOption (alistGet m) c).isSome = true := by
      rw [collectOption_isSome]; exact hpred
    obtain ⟨ws, hws⟩ := Option.isSome_iff_exists.mp hs
    refine ⟨ws, ?_, collectOption_eq_some.mp hws⟩
    simp only [CEDict.get, hnone, firstChunking_eq_find, hfind, Option.some_bind, hws]

/-- Claim C8: when `token` is not a direct key and no enumerated
decomposition has all pieces as direct keys, `CEDict::get` panics with a
message naming the offending token (modelled by `Except.error`). -/
theorem cedict_get_panic_on_unresolvable (m : List (String × Word)) (token : String)
    (h1 : alistGet m token = none)
    (h2 : ∀ c ∈ generateAllChunkings token, ∃ p ∈ c, alistGet m p = none) :
    CEDict.get m token =
      Except.error ("The dictionary didn't contain one of the chars of " ++ token) := by
  have hfind : (generateAllChunkings token).find?
      (fun ch => ch.all (fun p => (alistGet m p).isSome)) = none := by
    apply List.find?_eq_none.mpr
    intro c hc
    obtain ⟨p, hp, hpn⟩ := h2 c hc
    intro hall
    have := List.all_eq_true.mp hall p hp
    rw [hpn] at this
    exact Bool.noConfusion this
  simp only [CEDict.get, h1, firstChunking_eq_find, hfind, Option.none_bind]

/-- Witness for C1 -/
theorem cedict_get_resolution_witness :
    CEDict.get demoDict "共同话题" = Except.ok [wGongTong, wHuaTi] := by
  obtain ⟨ws, hget, hf⟩ :=
    (cedict_get_resolution demoDict "共同话题").2 (by decide) ["共同", "话题"] (by decide)
  rcases hf with _ | ⟨h1, hf⟩
  rcases hf with _ | ⟨h2, hf⟩
  rcases hf
  rename_i w1 w2
  have e1 : w1 = wGongTong :=
    (Option.some.inj ((by decide : alistGet demoDict "共同" = some wGongTong).symm.trans h1)).symm
  have e2 : w2 = wHuaTi :=
    (Option.some.inj ((by decide : alistGet demoDict "话题" = some wHuaTi).symm.trans h2)).symm
  rw [e1, e2] at hget
  exact hget

/-- Witness for C8 -/
theorem cedict_get_panic_witness :
    CEDict.get [] "ab" =
      Except.error ("The dictionary didn't contain one of the chars of " ++ "ab") := by
  apply cedict_get_panic_on_unresolvable
  · rfl
  · intro c hc
    have : c = ["a", "b"] := by
      have h : generateAllChunkings "ab" = [["a", "b"]] := by decide
      rw [h] at hc
      simpa using hc
    subst this
    exact ⟨"a", by decide, rfl⟩

lemma dedup_eq_singleton_of_all_eq {α : Type} [DecidableEq α] :
    ∀ (L : List α) (a : α), L ≠ [] → (∀ x ∈ L, x = a) → L.dedup = [a] := by
  intro L
  induction L with
  | nil => intro a h _; exact absurd rfl h
  | cons x rest ih =>
    intro a _ hall
    have hx : x = a := hall x (List.mem_cons_self x rest)
    cases rest with
    | nil => simp [List.dedup, hx]
    | cons y r =>
      have hrest : (y :: r).dedup = [a] := by
        apply ih a (by simp)
        intro z hz
        exact hall z (List.mem_cons_of_mem x hz)
      have hy : y = a := hall y (by simp)
      have hmem : x ∈ y :: r := by
        rw [hx, hy]
        exact List.mem_cons_self a r
      rw [List.dedup_cons_of_mem hmem, hrest]

/-- Shared evaluation of `to_colour_hanzi` when every reading carries the
same tone sequence `ts`. -/
lemma toColourHanzi_of_consensus (w : Word) (ts : List (Option Tone))
    (h1 : w.pinyins ≠ []) (h2 : ∀ pd ∈ w.pinyins, tonesOf pd.1 = ts) :
    toColourHanzi w =
      String.join ((w.simplified.data.zip ts).map
        (fun ct => colourise (String.mk [ct.1]) ct.2)) := by
  have hded : (w.pinyins.map (fun pd => tonesOf pd.1)).dedup = [ts] := by
    apply dedup_eq_singleton_of_all_eq
    · intro h
      exact h1 (List.map_eq_nil_iff.mp h)
    · intro x hx
      obtain ⟨pd, hpd, rfl⟩ := List.mem_map.mp hx
      exact h2 pd hpd
  simp only [toColourHanzi, hded]

/-- Claim C6: `to_colour_hanzi` compares only the tone sequences of the
readings.  If every reading has the same tone sequence, each character is
colourised with the positionally corresponding tone of that sequence; if
two readings' tone sequences differ, every character is colourised with
the fifth-tone class. -/
theorem to_colour_hanzi_tone_consensus (w : Word) :
    (∀ ts, w.pinyins ≠ [] → (∀ pd ∈ w.pinyins, tonesOf pd.1 = ts) →
      toColourHanzi w =
        String.join ((w.simplified.data.zip ts).map
          (fun ct => colourise (String.mk [ct.1]) ct.2))) ∧
    ((∃ pd ∈ w.pinyins, ∃ qd ∈ w.pinyins, tonesOf pd.1 ≠ tonesOf qd.1) →
      toColourHanzi w =
        String.join (w.simplified.data.map
          (fun c => colourise (String.mk [c]) (some Tone.Fifth)))) := by
  constructor
  · intro ts h1 h2
    exact toColourHanzi_of_consensus w ts h1 h2
  · rintro ⟨pd, hpd, qd, hqd, hne⟩
    have hp : tonesOf pd.1 ∈ (w.pinyins.map (fun x => tonesOf x.1)).dedup := by
      rw [List.mem_dedup]
      exact List.mem_map.mpr ⟨pd, hpd, rfl⟩
    have hq : tonesOf qd.1 ∈ (w.pinyins.map (fun x => tonesOf x.1)).dedup := by
      rw [List.mem_dedup]
      exact List.mem_map.mpr ⟨qd, hqd, rfl⟩
    unfold toColourHanzi
    cases hd : (w.pinyins.map (fun x => tonesOf x.1)).dedup with
    | nil =>
      rw [hd] at hp
    | cons a tail =>
      cases tail with
      | nil =>
        rw [hd] at hp hq
        rw [List.mem_singleton.mp hp, List.mem_singleton.mp hq] at hne
        exact absurd rfl hne
      | cons b t => rfl

lemma zip_eq_zip_take {α β : Type} :
    ∀ (l : List α) (ts : List β),
      l.zip ts = (l.take ts.length).zip (ts.take l.length) := by
  intro l
  induction l with
  | nil => intro ts; simp
  | cons a l ih =>
    intro ts
    cases ts with
    | nil => simp
    | cons t ts =>
      simp only [List.zip_cons_cons, List.length_cons, List.take_succ_cons]
      rw [ih ts]

/-- Claim C10: when all readings agree on one tone sequence whose length
differs from the character count, `to_colour_hanzi` zips to the shorter
length: characters beyond the tone-sequence length are omitted from the
output entirely and excess tones are ignored, with no error. -/
theorem to_colour_hanzi_zip_truncates (w : Word) (ts : List (Option Tone))
    (h1 : w.pinyins ≠ []) (h2 : ∀ pd ∈ w.pinyins, tonesOf pd.1 = ts) :
    toColourHanzi w =
      String.join (((w.simplified.data.take ts.length).zip
          (ts.take w.simplified.data.length)).map
        (fun ct => colourise (String.mk [ct.1]) ct.2)) := by
  rw [toColourHanzi_of_consensus w ts h1 h2, zip_eq_zip_take]

/-- Witness for C6 -/
theorem to_colour_hanzi_tone_consensus_witness :
    toColourHanzi wNiHao =
        "<span class=\"tone3\">你</span><span class=\"tone3\">好</span>" ∧
      toColourHanzi wChang = "<span class=\"tone5\">长</span>" := by
  constructor
  · have h := (to_colour_hanzi_tone_consensus wNiHao).1
      [some Tone.Third, some Tone.Third] (by decide) (by decide)
    exact h.trans (by decide)
  · have h := (to_colour_hanzi_tone_consensus wChang).2
      ⟨(⟨⟨[⟨"chang", some Tone.Second⟩]⟩, ["long"]⟩ : PinYin × List String), by decide,
        (⟨⟨[⟨"zhang", some Tone.Third⟩]⟩, ["grow"]⟩ : PinYin × List String), by decide,
        by decide⟩
    exact h.trans (by decide)

/-- Witness for C10 -/
theorem to_colour_hanzi_zip_truncates_witness :
    toColourHanzi wShortTones = "<span class=\"tone3\">你</span>" := by
  have h := to_colour_hanzi_zip_truncates wShortTones [some Tone.Third]
    (by decide) (by decide)
  exact h.trans (by decide)

/-- Claim C7 (amended): for every syllable token other than the bare
interpunct (nonempty, with a one-byte final character), the parser takes
all characters but the last as text with `u:` rewritten to `ü`; a
non-digit last character yields a syllable with no tone; a digit last
character yields the corresponding tone for 1-5 and panics (modelled by
`none`) for any other digit. -/
theorem pinyin_syllable_fromStr_spec (value : String) (c : Char)
    (h1 : value ≠ "·") (hc : value.data.getLast? = some c) (hsz : c.utf8Size = 1) :
    (c.isDigit = false →
      PinYinSyllable.fromStr value =
        some ⟨String.mk (replaceUColon value.data.dropLast), none⟩) ∧
    (∀ t, c.isDigit = true → toneFromNat (c.toNat - 48) = some t →
      PinYinSyllable.fromStr value =
        some ⟨String.mk (replaceUColon value.data.dropLast), some t⟩) ∧
    (c.isDigit = true → toneFromNat (c.toNat - 48) = none →
      PinYinSyllable.fromStr value = none) := by
  refine ⟨?_, ?_, ?_⟩
  · intro hd
    simp only [PinYinSyllable.fromStr, if_neg h1, hc, hsz, hd]
    simp
  · intro t hd ht
    simp only [PinYinSyllable.fromStr, if_neg h1, hc, hsz, hd, ht]
    simp
  · intro hd ht
    simp only [PinYinSyllable.fromStr, if_neg h1, hc, hsz, hd, ht]
    simp

/-- Witness for C7 (amended) -/
theorem pinyin_syllable_fromStr_spec_witness :
    PinYinSyllable.fromStr "hao%" = some ⟨"hao", none⟩ ∧
      PinYinSyllable.fromStr "nu:6" = none := by
  constructor
  · have h := (pinyin_syllable_fromStr_spec "hao%" '%' (by decide) (by decide) (by decide)).1
      (by decide)
    exact h.trans (by decide)
  · exact (pinyin_syllable_fromStr_spec "nu:6" '6' (by decide) (by decide)
      (by decide)).2.2 (by decide) (by decide)

lemma alistGet_alistInsertWith {κ α : Type} [DecidableEq κ] (k : κ) (f : α → α) (v : α) :
    ∀ (m : List (κ × α)) (q : κ),
      alistGet (alistInsertWith m k f v) q =
        if q = k then
          some (match alistGet m k with | some b => f b | none => v)
        else alistGet m q := by
  intro m
  induction m with
  | nil =>
    intro q
    by_cases hq : q = k
    · subst hq
      simp [alistInsertWith, alistGet]
    · simp [alistInsertWith, alistGet, hq, Ne.symm hq]
  | cons ab rest ih =>
    intro q
    obtain ⟨a, b⟩ := ab
    by_cases hak : a = k
    · subst hak
      by_cases hq : q = a
      · subst hq
        simp [alistInsertWith, alistGet]
      · simp [alistInsertWith, alistGet, hq, Ne.symm hq]
    · have h1 : alistInsertWith ((a, b) :: rest) k f v =
          (a, b) :: alistInsertWith rest k f v := by
        simp [alistInsertWith, hak]
      rw [h1]
      by_cases hq : q = k
      · subst hq
        have haq : a ≠ q := hak
        simp only [alistGet, if_neg haq, ih q, if_pos rfl, hak]
        simp
      · by_cases haq : a = q
        · subst haq
          simp [alistGet, hq]
        · simp only [alistGet, if_neg haq, ih q, if_neg hq]

lemma mem_keys_alistInsertWith {κ α : Type} [DecidableEq κ] (k : κ) (f : α → α) (v : α) :
    ∀ (m : List (κ × α)) (q : κ),
      q ∈ (alistInsertWith m k f v).map Prod.fst ↔ q ∈ m.map Prod.fst ∨ q = k := by
  intro m
  induction m with
  | nil =>
    intro q
    simp [alistInsertWith]
  | cons ab rest ih =>
    intro q
    obtain ⟨a, b⟩ := ab
    by_cases hak : a = k
    · subst hak
      simp [alistInsertWith, List.mem_cons]
      tauto
    · simp [alistInsertWith, hak, List.mem_cons, ih]
      tauto

lemma nodup_keys_alistInsertWith {κ α : Type} [DecidableEq κ] (k : κ) (f : α → α) (v : α) :
    ∀ (m : List (κ × α)), (m.map Prod.fst).Nodup →
      ((alistInsertWith m k f v).map Prod.fst).Nodup := by
  intro m
  induction m with
  | nil => intro _; simp [alistInsertWith]
  | cons ab rest ih =>
    intro h
    obtain ⟨a, b⟩ := ab
    rw [List.map_cons, List.nodup_cons] at h
    by_cases hak : a = k
    · have e : alistInsertWith ((a, b) :: rest) k f v = (a, f b) :: rest := by
        simp [alistInsertWith, hak]
      rw [e, List.map_cons, List.nodup_cons]
      exact h
    · simp only [alistInsertWith, if_neg hak, List.map_cons, List.nodup_cons]
      refine ⟨?_, ih h.2⟩
      rw [mem_keys_alistInsertWith]
      rintro (hmem | rfl)
      · exact h.1 hmem
      · exact hak rfl

lemma mem_glossInsert (acc : List String) (x g : String) :
    g ∈ glossInsert acc x ↔ g ∈ acc ∨ g = x := by
  unfold glossInsert
  by_cases hx : x ∈ acc
  · rw [if_pos hx]
    constructor
    · exact Or.inl
    · rintro (h | rfl)
      · exact h
      · exact hx
  · rw [if_neg hx]
    simp

lemma mem_extendGlosses :
    ∀ (new acc : List String) (g : String),
      g ∈ extendGlosses acc new ↔ g ∈ acc ∨ g ∈ new := by
  intro new
  induction new with
  | nil => intro acc g; simp [extendGlosses]
  | cons x new ih =>
    intro acc g
    have h1 : extendGlosses acc (x :: new) = extendGlosses (glossInsert acc x) new := rfl
    rw [h1, ih, mem_glossInsert]
    simp [or_assoc]

lemma mergeWord_singleton (ex : Word) (s : String) (py0 : PinYin) (gs0 : List String) :
    (mergeWord ex ⟨s, [(py0, gs0)]⟩).pinyins =
      alistInsertWith ex.pinyins py0 (fun ds => extendGlosses ds gs0) gs0 := rfl

lemma wordHasGloss_merge (ex : Word) (s : String) (py0 : PinYin) (gs0 : List String)
    (py : PinYin) (g : String) :
    wordHasGloss (mergeWord ex ⟨s, [(py0, gs0)]⟩) py g ↔
      wordHasGloss ex py g ∨ (py = py0 ∧ g ∈ gs0) := by
  unfold wordHasGloss
  rw [mergeWord_singleton, alistGet_alistInsertWith]
  by_cases hpy : py = py0
  · subst hpy
    rw [if_pos rfl]
    cases hex : alistGet ex.pinyins py with
    | none => simp [mem_extendGlosses]
    | some ds => simp [mem_extendGlosses]
  · rw [if_neg hpy]
    simp [hpy]

lemma singleton_wordHasGloss (s : String) (py0 : PinYin) (gs0 : List String)
    (py : PinYin) (g : String) :
    wordHasGloss ⟨s, [(py0, gs0)]⟩ py g ↔ py = py0 ∧ g ∈ gs0 := by
  unfold wordHasGloss
  by_cases hpy : py0 = py
  · subst hpy
    simp [alistGet]
  · simp only [alistGet, if_neg hpy]
    constructor
    · rintro ⟨gs, h, _⟩
      exact absurd h (by simp)
    · rintro ⟨rfl, _⟩
      exact absurd rfl hpy

lemma storeHasGloss_insertEntry (m : List (String × Word)) (w0 : Word)
    (py0 : PinYin) (gs0 : List String) (hw : w0.pinyins = [(py0, gs0)])
    (form : String) (py : PinYin) (g : String) :
    storeHasGloss (insertEntry m w0) form py g ↔
      storeHasGloss m form py g ∨
        (form = w0.simplified ∧ py = py0 ∧ g ∈ gs0) := by
  obtain ⟨s, pys⟩ := w0
  simp only at hw
  subst hw
  unfold storeHasGloss insertEntry
  rw [alistGet_alistInsertWith]
  by_cases hform : form = s
  · subst hform
    rw [if_pos rfl]
    cases hm : alistGet m form with
    | none =>
      simp only [Option.some.injEq, exists_eq_left', singleton_wordHasGloss]
      simp
    | some ex =>
      simp only [Option.some.injEq, exists_eq_left', wordHasGloss_merge]
      simp
  · rw [if_neg hform]
    simp [hform]

lemma parseLine_shape {line : String} {w0 : Word} (h : parseLine line = some w0) :
    ∃ py0 gs0, w0.pinyins = [(py0, gs0)] := by
  unfold parseLine at h
  repeat' split at h
  all_goals first
    | (obtain rfl := Option.some.inj h; exact ⟨_, _, rfl⟩)
    | exact absurd h (by simp)

lemma wordHasGloss_of_pinyins {w : Word} {py0 : PinYin} {gs0 : List String}
    (hw : w.pinyins = [(py0, gs0)]) (py : PinYin) (g : String) :
    wordHasGloss w py g ↔ py = py0 ∧ g ∈ gs0 := by
  unfold wordHasGloss
  rw [hw]
  by_cases hpy : py0 = py
  · subst hpy
    simp [alistGet]
  · simp only [alistGet, if_neg hpy]
    constructor
    · rintro ⟨gs, h, _⟩
      exact absurd h (by simp)
    · rintro ⟨rfl, _⟩
      exact absurd rfl hpy

lemma mergeWord_pinyins {w0 : Word} {py0 : PinYin} {gs0 : List String}
    (hw : w0.pinyins = [(py0, gs0)]) (ex : Word) :
    (mergeWord ex w0).pinyins =
      alistInsertWith ex.pinyins py0 (fun ds => extendGlosses ds gs0) gs0 := by
  unfold mergeWord
  rw [hw]
  rfl

lemma parseLines_hasGloss :
    ∀ (lines : List String) (m0 m : List (String × Word)),
      parseLines m0 lines = some m →
      ∀ (form : String) (py : PinYin) (g : String),
        storeHasGloss m form py g ↔
          storeHasGloss m0 form py g ∨
            ∃ line ∈ lines, startsWithHash line = false ∧
              lineContributes line form py g := by
  intro lines
  induction lines with
  | nil =>
    intro m0 m h form py g
    obtain rfl : m0 = m := Option.some.inj h
    simp
  | cons line rest ih =>
    intro m0 m h form py g
    by_cases hsh : startsWithHash line = true
    · rw [show parseLines m0 (line :: rest) = parseLines m0 rest by
        simp [parseLines, hsh]] at h
      rw [ih m0 m h form py g]
      constructor
      · rintro (hs | ⟨l, hl, hns, hc⟩)
        · exact Or.inl hs
        · exact Or.inr ⟨l, List.mem_cons_of_mem line hl, hns, hc⟩
      · rintro (hs | ⟨l, hl, hns, hc⟩)
        · exact Or.inl hs
        · rcases List.mem_cons.mp hl with rfl | hl2
          · rw [hsh] at hns
            exact absurd hns (by simp)
          · exact Or.inr ⟨l, hl2, hns, hc⟩
    · have hsf : startsWithHash line = false := by
        cases hb : startsWithHash line
        · rfl
        · exact absurd hb hsh
      cases hp : parseLine line with
      | none =>
        rw [show parseLines m0 (line :: rest) = none by
          simp [parseLines, hsf, hp]] at h
        exact absurd h (by simp)
      | some w0 =>
        rw [show parseLines m0 (line :: rest) = parseLines (insertEntry m0 w0) rest by
          simp [parseLines, hsf, hp]] at h
        obtain ⟨py0, gs0, hw⟩ := parseLine_shape hp
        rw [ih (insertEntry m0 w0) m h form py g,
          storeHasGloss_insertEntry m0 w0 py0 gs0 hw form py g]
        have hline : lineContributes line form py g ↔
            (form = w0.simplified ∧ py = py0 ∧ g ∈ gs0) := by
          unfold lineContributes
          constructor
          · rintro ⟨w1, hw1, hsimp, hglo⟩
            obtain rfl : w0 = w1 := Option.some.inj (hp.symm.trans hw1)
            exact ⟨hsimp.symm, (wordHasGloss_of_pinyins hw py g).mp hglo⟩
          · rintro ⟨hf, hpg⟩
            exact ⟨w0, hp, hf.symm, (wordHasGloss_of_pinyins hw py g).mpr hpg⟩
        have hcons : (∃ l ∈ line :: rest, startsWithHash l = false ∧
              lineContributes l form py g) ↔
            ((form = w0.simplified ∧ py = py0 ∧ g ∈ gs0) ∨
              ∃ l ∈ rest, startsWithHash l = false ∧ lineContributes l form py g) := by
          simp only [List.mem_cons]
          constructor
          · rintro ⟨l, hl, hns, hc⟩
            rcases hl with rfl | hl2
            · exact Or.inl (hline.mp hc)
            · exact Or.inr ⟨l, hl2, hns, hc⟩
          · rintro (hcontrib | ⟨l, hl, hns, hc⟩)
            · exact ⟨line, Or.inl rfl, hsf, hline.mpr hcontrib⟩
            · exact ⟨l, Or.inr hl, hns, hc⟩
        rw [hcons, or_assoc]

lemma insertEntry_preserves_inv (m0 : List (String × Word)) (w0 : Word)
    (py0 : PinYin) (gs0 : List String) (hw : w0.pinyins = [(py0, gs0)])
    (h1 : (m0.map Prod.fst).Nodup)
    (h2 : ∀ form w, alistGet m0 form = some w → (w.pinyins.map Prod.fst).Nodup) :
    ((insertEntry m0 w0).map Prod.fst).Nodup ∧
      ∀ form w, alistGet (insertEntry m0 w0) form = some w →
        (w.pinyins.map Prod.fst).Nodup := by
  constructor
  · exact nodup_keys_alistInsertWith _ _ _ m0 h1
  · intro form w hg
    unfold insertEntry at hg
    rw [alistGet_alistInsertWith] at hg
    by_cases hform : form = w0.simplified
    · rw [if_pos hform] at hg
      cases hex : alistGet m0 w0.simplified with
      | none =>
        rw [hex] at hg
        obtain rfl : w0 = w := Option.some.inj hg
        rw [hw]
        simp
      | some ex =>
        rw [hex] at hg
        obtain rfl : mergeWord ex w0 = w := Option.some.inj hg
        rw [mergeWord_pinyins hw]
        exact nodup_keys_alistInsertWith _ _ _ ex.pinyins (h2 _ ex hex)
    · rw [if_neg hform] at hg
      exact h2 form w hg

lemma parseLines_nodup :
    ∀ (lines : List String) (m0 m : List (String × Word)),
      parseLines m0 lines = some m →
      (m0.map Prod.fst).Nodup →
      (∀ form w, alistGet m0 form = some w → (w.pinyins.map Prod.fst).Nodup) →
      (m.map Prod.fst).Nodup ∧
        ∀ form w, alistGet m form = some w → (w.pinyins.map Prod.fst).Nodup := by
  intro lines
  induction lines with
  | nil =>
    intro m0 m h h1 h2
    obtain rfl : m0 = m := Option.some.inj h
    exact ⟨h1, h2⟩
  | cons line rest ih =>
    intro m0 m h h1 h2
    by_cases hsh : startsWithHash line = true
    · rw [show parseLines m0 (line :: rest) = parseLines m0 rest by
        simp [parseLines, hsh]] at h
      exact ih m0 m h h1 h2
    · have hsf : startsWithHash line = false := by
        cases hb : startsWithHash line
        · rfl
        · exact absurd hb hsh
      cases hp : parseLine line with
      | none =>
        rw [show parseLines m0 (line :: rest) = none by
          simp [parseLines, hsf, hp]] at h
        exact absurd h (by simp)
      | some w0 =>
        rw [show parseLines m0 (line :: rest) = parseLines (insertEntry m0 w0) rest by
          simp [parseLines, hsf, hp]] at h
        obtain ⟨py0, gs0, hw⟩ := parseLine_shape hp
        obtain ⟨h1', h2'⟩ := insertEntry_preserves_inv m0 w0 py0 gs0 hw h1 h2
        exact ih (insertEntry m0 w0) m h h1' h2'

/-- Claim C9: after parsing any list of source lines, the store has no
duplicate written-form keys and no entry has duplicate reading keys, and
a gloss `g` appears in the entry for `(form, py)` exactly when some
non-comment source line parses to that written form and reading with `g`
among its glosses — so two lines with the same form and reading yield one
entry whose gloss set is the union of both lines' glosses, and a new
reading of an existing form becomes a distinct reading key. -/
theorem cedict_parse_store_spec (lines : List String) (m : List (String × Word))
    (h : CEDict.parse lines = some m) :
    ((m.map Prod.fst).Nodup ∧
      ∀ form w, alistGet m form = some w → (w.pinyins.map Prod.fst).Nodup) ∧
    (∀ form py g,
      storeHasGloss m form py g ↔
        ∃ line ∈ lines, startsWithHash line = false ∧
          lineContributes line form py g) := by
  constructor
  · refine parseLines_nodup lines [] m h (by simp) ?_
    intro form w hw
    simp [alistGet] at hw
  · intro form py g
    rw [parseLines_hasGloss lines [] m h form py g]
    have hempty : ¬ storeHasGloss [] form py g := by
      rintro ⟨w, hw, _⟩
      simp [alistGet] at hw
    constructor
    · rintro (hs | he)
      · exact absurd hs hempty
      · exact he
    · exact Or.inr

/-- Witness for C9: parsing the two demo lines (same written form 共同 and
same reading) produces a store with distinct keys whose single entry
carries the gloss `joint` contributed by the second line. -/
theorem cedict_parse_store_spec_witness :
    (demoStore.map Prod.fst).Nodup ∧
      storeHasGloss demoStore "共同"
        ⟨[⟨"gong", some Tone.Fourth⟩, ⟨"tong", some Tone.Second⟩]⟩ "joint" := by
  constructor
  · exact (cedict_parse_store_spec demoLines demoStore (by decide)).1.1
  · refine ((cedict_parse_store_spec demoLines demoStore (by decide)).2 _ _ _).mpr ?_
    refine ⟨"X 共同 [gong4 tong2] /joint/common/", by simp [demoLines], by decide, ?_⟩
    refine ⟨⟨"共同",
      [(⟨[⟨"gong", some Tone.Fourth⟩, ⟨"tong", some Tone.Second⟩]⟩, ["joint", "common"])]⟩,
      by decide, rfl, ?_⟩
    exact ⟨["joint", "common"], by decide, by decide⟩

lemma flatMap_congr_on {α β : Type} {l : List α} {f g : α → List β}
    (h : ∀ a ∈ l, f a = g a) : l.flatMap f = l.flatMap g := by
  induction l with
  | nil => rfl
  | cons a l ih =>
    rw [List.flatMap_cons, List.flatMap_cons, h a (List.mem_cons_self a l),
      ih (fun x hx => h x (List.mem_cons_of_mem a hx))]

lemma subdivFuel_congr :
    ∀ (f1 : Nat) (l : List Char) (f2 : Nat), l.length ≤ f1 → l.length ≤ f2 →
      subdivFuel f1 l = subdivFuel f2 l := by
  intro f1
  induction f1 with
  | zero =>
    intro l f2 h1 _
    cases l with
    | nil =>
      cases f2 <;> rfl
    | cons c cs => exact absurd h1 (by simp)
  | succ g1 ih =>
    intro l f2 h1 h2
    cases l with
    | nil => cases f2 <;> rfl
    | cons c cs =>
      cases f2 with
      | zero => exact absurd h2 (by simp)
      | succ g2 =>
        show ((List.range (cs.length + 1)).map (fun i => i + 1)).flatMap _ =
          ((List.range (cs.length + 1)).map (fun i => i + 1)).flatMap _
        apply flatMap_congr_on
        intro i hi
        obtain ⟨j, hj, rfl⟩ := List.mem_map.mp hi
        have hjlt : j < cs.length + 1 := List.mem_range.mp hj
        have hdrop : ((c :: cs).drop (j + 1)).length ≤ cs.length := by
          simp only [List.length_drop, List.length_cons]
          omega
        rw [ih ((c :: cs).drop (j + 1)) g2
          (le_trans hdrop (Nat.lt_succ_iff.mp h1))
          (le_trans hdrop (Nat.lt_succ_iff.mp h2))]

lemma subdivisions_cons (c : Char) (cs : List Char) :
    subdivisions (c :: cs) =
      ((List.range (cs.length + 1)).map (fun i => i + 1)).flatMap
        (fun i => (subdivisions ((c :: cs).drop i)).map
          (fun s => (c :: cs).take i :: s)) := by
  show subdivFuel (cs.length + 1) (c :: cs) = _
  show ((List.range (cs.length + 1)).map (fun i => i + 1)).flatMap _ = _
  apply flatMap_congr_on
  intro i hi
  obtain ⟨j, hj, rfl⟩ := List.mem_map.mp hi
  have hjlt : j < cs.length + 1 := List.mem_range.mp hj
  have hdrop : ((c :: cs).drop (j + 1)).length ≤ cs.length := by
    simp only [List.length_drop, List.length_cons]
    omega
  rw [subdivFuel_congr cs.length ((c :: cs).drop (j + 1)) ((c :: cs).drop (j + 1)).length
    hdrop le_rfl]
  rfl

lemma subdivisions_pairwise (l : List Char) :
    (subdivisions l).Pairwise
      (fun a b => List.Lex (· < ·) (a.map List.length) (b.map List.length)) := by
  generalize hn : l.length = n
  induction n using Nat.strong_induction_on generalizing l with
  | _ n ih =>
    cases l with
    | nil => simp [subdivisions, subdivFuel]
    | cons c cs =>
      rw [subdivisions_cons]
      apply List.pairwise_flatMap.mpr
      constructor
      · intro i hi
        obtain ⟨j, hj, rfl⟩ := List.mem_map.mp hi
        rw [List.pairwise_map]
        have hlen : ((c :: cs).drop (j + 1)).length < n := by
          subst hn
          simp only [List.length_drop, List.length_cons]
          omega
        have hsub := ih ((c :: cs).drop (j + 1)).length hlen ((c :: cs).drop (j + 1)) rfl
        apply List.Pairwise.imp ?_ hsub
        intro s t hst
        exact List.Lex.cons hst
      · have hbase : (List.range (cs.length + 1)).Pairwise (· < ·) :=
          List.pairwise_lt_range (cs.length + 1)
        have hmapped : ((List.range (cs.length + 1)).map (fun i => i + 1)).Pairwise
            (fun i j => i < j ∧ i ≤ cs.length + 1 ∧ j ≤ cs.length + 1) := by
          rw [List.pairwise_map]
          apply List.Pairwise.imp_of_mem ?_ hbase
          intro a b ha hb hab
          exact ⟨by omega,
            Nat.succ_le_of_lt (List.mem_range.mp ha),
            Nat.succ_le_of_lt (List.mem_range.mp hb)⟩
        apply List.Pairwise.imp_of_mem ?_ hmapped
        intro i j _ _ hij
        obtain ⟨hlt, hi1, hj1⟩ := hij
        intro x hx y hy
        obtain ⟨s, _, rfl⟩ := List.mem_map.mp hx
        obtain ⟨t, _, rfl⟩ := List.mem_map.mp hy
        simp only [List.map_cons]
        have hti : ((c :: cs).take i).length = i := by
          rw [List.length_take]
          simp only [List.length_cons]
          omega
        have htj : ((c :: cs).take j).length = j := by
          rw [List.length_take]
          simp only [List.length_cons]
          omega
        rw [hti, htj]
        exact List.Lex.rel hlt

/-- Claim C3 (amended): for every token, the chunking enumeration is
strictly ordered by decreasing piece-length sequence in lexicographic
order — at the first index where two decompositions' piece lengths
differ, the earlier decomposition has the longer piece (so the leftmost
split varies slowest and larger first pieces come first).  It is not
globally ordered by piece count. -/
theorem generateAllChunkings_lex_ordered (w : String) :
    (generateAllChunkings w).Pairwise
      (fun a b => List.Lex (· < ·) (b.map String.length) (a.map String.length)) := by
  unfold generateAllChunkings
  rw [List.pairwise_map]
  have hlen : ∀ c : List (List Char),
      (c.map (fun piece => String.mk piece)).map String.length = c.map List.length := by
    intro c
    rw [List.map_map]
    rfl
  have hrev : ((subdivisions w.data).reverse).Pairwise
      (fun a b => List.Lex (· < ·) (b.map List.length) (a.map List.length)) := by
    rw [List.pairwise_reverse]
    exact subdivisions_pairwise w.data
  have hdropped := hrev.sublist (List.drop_sublist 1 _)
  apply List.Pairwise.imp ?_ hdropped
  intro a b hab
  rw [hlen a, hlen b]
  exact hab
